import Mathlib

/-!
# Verification of the vim2vid editor-buffer and layout core

Shallow embedding of the buffer state machine, line wrapping, cursor
mapping, auto-scroll and highlight logic of `src/vim2vid.py`
(`VimVideoGenerator`), together with proofs of the spec's testable
properties.

Conventions of the embedding:
* Python strings become `List Char`; slices `line[:k]` / `line[k:]`
  become `List.take k` / `List.drop k` (both clamp, as Python slices do).
* The mutable fields `lines`, `cursor_row`, `cursor_col` become the
  `EditorState` structure, and each mutating method becomes a function
  `EditorState → … → Except String EditorState`; a Python `IndexError`
  raised by an out-of-range list subscript becomes `.error`.
* Rendering side effects (`_add_frame`, pixel drawing) do not touch the
  buffer; functions below model only the buffer/layout effects of each
  method, and `_add_frame`'s frame count is modelled separately.
-/

namespace Vim2Vid

/-- Buffer state of `VimVideoGenerator`: the logical document `lines`
(field `self.lines`), cursor row (`self.cursor_row`) and cursor column
(`self.cursor_col`). -/
structure EditorState where
  lines : List (List Char)
  row : Nat
  col : Nat
deriving DecidableEq, Repr

/-- The initial buffer from `__init__`: `self.lines = [""]`,
`self.cursor_row = 0`, `self.cursor_col = 0`. -/
def initState : EditorState := ⟨[[]], 0, 0⟩

/-- The buffer invariant of the spec: at least one line, the cursor row a
valid line index, and the cursor column at most the current line length. -/
def Valid (s : EditorState) : Prop :=
  0 < s.lines.length ∧ s.row < s.lines.length ∧
    s.col ≤ (s.lines.getD s.row []).length

instance (s : EditorState) : Decidable (Valid s) := by
  unfold Valid; infer_instance

/-- `VimVideoGenerator._type_character`.  First the defensive pad
(`if cursor_row >= len(lines): lines.append("")`), then the subscript
`lines[cursor_row]` (an `IndexError` if still out of range), then either
the newline split or the in-line character insertion. -/
def typeCharacter (s : EditorState) (c : Char) : Except String EditorState :=
  let lines := if s.lines.length ≤ s.row then s.lines ++ [[]] else s.lines
  if s.row < lines.length then
    let line := lines.getD s.row []
    if c = '\n' then
      .ok ⟨(lines.set s.row (line.take s.col)).insertIdx (s.row + 1) (line.drop s.col),
           s.row + 1, 0⟩
    else
      .ok ⟨lines.set s.row (line.take s.col ++ c :: line.drop s.col), s.row, s.col + 1⟩
  else
    .error "IndexError: list index out of range"

/-- `VimVideoGenerator._backspace`.  Within a line it deletes the
character before the cursor; at column 0 of a later row it merges the
current line into the previous one; at `(0,0)` it is a no-op. -/
def backspace (s : EditorState) : Except String EditorState :=
  if 0 < s.col then
    if s.row < s.lines.length then
      let line := s.lines.getD s.row []
      .ok ⟨s.lines.set s.row (line.take (s.col - 1) ++ line.drop s.col), s.row, s.col - 1⟩
    else
      .error "IndexError: list index out of range"
  else if 0 < s.row then
    if s.row < s.lines.length then
      let prevLine := s.lines.getD (s.row - 1) []
      let currLine := s.lines.getD s.row []
      .ok ⟨(s.lines.set (s.row - 1) (prevLine ++ currLine)).eraseIdx s.row,
           s.row - 1, prevLine.length⟩
    else
      .error "IndexError: list index out of range"
  else
    .ok s

/-- One atomic edit operation of the Buffer State Machine. -/
inductive EditOp where
  | insertChar (c : Char)
  | insertNewline
  | doBackspace
deriving DecidableEq

/-- Apply one edit operation (`insertNewline` is `_type_character('\n')`
in the source). -/
def applyOp (s : EditorState) : EditOp → Except String EditorState
  | .insertChar c => typeCharacter s c
  | .insertNewline => typeCharacter s '\n'
  | .doBackspace => backspace s

/-- Apply a finite sequence of edit operations in order. -/
def applyOps (s : EditorState) : List EditOp → Except String EditorState
  | [] => .ok s
  | op :: rest => do applyOps (← applyOp s op) rest

/-- `insertChar` operations carry a single non-newline character. -/
def OpWellFormed : EditOp → Prop
  | .insertChar c => c ≠ '\n'
  | _ => True

section BufferLemmas

theorem getD_eq_get (l : List (List Char)) (n : Nat) (h : n < l.length) :
    l.getD n [] = l[n] := by
  rw [List.getD_eq_getElem?_getD, List.getElem?_eq_getElem h]
  rfl

/-- From a valid state, inserting a non-newline character splices it into
the current line at the cursor column. -/
theorem typeCharacter_insert_eq (s : EditorState) (c : Char)
    (hrow : s.row < s.lines.length) (hc : c ≠ '\n') :
    typeCharacter s c =
      .ok ⟨s.lines.set s.row
            ((s.lines.getD s.row []).take s.col ++ c :: (s.lines.getD s.row []).drop s.col),
          s.row, s.col + 1⟩ := by
  have h1 : ¬ s.lines.length ≤ s.row := by omega
  simp [typeCharacter, h1, hrow, hc]

/-- From a valid state, typing `'\n'` splits the current line at the
cursor column and moves the cursor to the start of the new line. -/
theorem typeCharacter_newline_eq (s : EditorState)
    (hrow : s.row < s.lines.length) :
    typeCharacter s '\n' =
      .ok ⟨((s.lines.set s.row ((s.lines.getD s.row []).take s.col)).insertIdx (s.row + 1)
              ((s.lines.getD s.row []).drop s.col)),
          s.row + 1, 0⟩ := by
  have h1 : ¬ s.lines.length ≤ s.row := by omega
  simp [typeCharacter, h1, hrow]

theorem backspace_inline_eq (s : EditorState)
    (hcol : 0 < s.col) (hrow : s.row < s.lines.length) :
    backspace s =
      .ok ⟨s.lines.set s.row
            ((s.lines.getD s.row []).take (s.col - 1) ++ (s.lines.getD s.row []).drop s.col),
          s.row, s.col - 1⟩ := by
  unfold backspace
  rw [if_pos hcol, if_pos hrow]

theorem backspace_merge_eq (s : EditorState)
    (hcol : s.col = 0) (hrow0 : 0 < s.row) (hrow : s.row < s.lines.length) :
    backspace s =
      .ok ⟨(s.lines.set (s.row - 1)
              (s.lines.getD (s.row - 1) [] ++ s.lines.getD s.row [])).eraseIdx s.row,
          s.row - 1, (s.lines.getD (s.row - 1) []).length⟩ := by
  unfold backspace
  rw [if_neg (by omega), if_pos hrow0, if_pos hrow]

theorem backspace_noop_eq (s : EditorState) (hcol : s.col = 0) (hrow : s.row = 0) :
    backspace s = .ok s := by
  unfold backspace
  rw [if_neg (by omega), if_neg (by omega)]

end BufferLemmas

section Invariant

theorem getD_set_self (l : List (List Char)) (n : Nat) (a : List Char)
    (h : n < l.length) : (l.set n a).getD n [] = a := by
  rw [getD_eq_get _ _ (by simpa using h)]
  exact List.getElem_set_self (by simpa using h)

theorem typeCharacter_valid (s : EditorState) (c : Char) (hv : Valid s) :
    ∃ t : EditorState, typeCharacter s c = .ok t ∧ Valid t := by
  obtain ⟨hpos, hrow, hcol⟩ := hv
  by_cases hc : c = '\n'
  · subst hc
    have hlen1 : s.row + 1 ≤
        (s.lines.set s.row ((s.lines.getD s.row []).take s.col)).length := by
      simp; omega
    have hlen : ((s.lines.set s.row ((s.lines.getD s.row []).take s.col)).insertIdx
        (s.row + 1) ((s.lines.getD s.row []).drop s.col)).length = s.lines.length + 1 := by
      rw [List.length_insertIdx _ _ hlen1]
      simp
    refine ⟨_, typeCharacter_newline_eq s hrow, ?_, ?_, ?_⟩
    · simp only [hlen]; omega
    · simp only [hlen]; omega
    · simp
  · refine ⟨_, typeCharacter_insert_eq s c hrow hc, ?_, ?_, ?_⟩
    · simpa using hpos
    · simpa using hrow
    · rw [getD_set_self _ _ _ hrow]
      simp only [List.length_append, List.length_take, List.length_cons]
      omega

theorem backspace_valid (s : EditorState) (hv : Valid s) :
    ∃ t : EditorState, backspace s = .ok t ∧ Valid t := by
  obtain ⟨hpos, hrow, hcol⟩ := hv
  rcases Nat.eq_zero_or_pos s.col with hc0 | hcpos
  · rcases Nat.eq_zero_or_pos s.row with hr0 | hrpos
    · exact ⟨s, backspace_noop_eq s hc0 hr0, hpos, hrow, hcol⟩
    · refine ⟨_, backspace_merge_eq s hc0 hrpos hrow, ?_, ?_, ?_⟩
      · simp only [List.length_eraseIdx, List.length_set]
        rw [if_pos hrow]
        omega
      · simp only [List.length_eraseIdx, List.length_set]
        rw [if_pos hrow]
        omega
      · have hlen : s.row - 1 < ((s.lines.set (s.row - 1)
            (s.lines.getD (s.row - 1) [] ++ s.lines.getD s.row [])).eraseIdx s.row).length := by
          simp only [List.length_eraseIdx, List.length_set]
          rw [if_pos hrow]; omega
        rw [getD_eq_get _ _ hlen, List.getElem_eraseIdx, dif_pos (by omega),
          List.getElem_set_self (by simp; omega)]
        simp
  · refine ⟨_, backspace_inline_eq s hcpos hrow, ?_, ?_, ?_⟩
    · simpa using hpos
    · simpa using hrow
    · rw [getD_set_self _ _ _ hrow]
      simp only [List.length_append, List.length_take, List.length_drop]
      omega

theorem applyOp_valid (s : EditorState) (op : EditOp) (hv : Valid s) :
    ∃ t : EditorState, applyOp s op = .ok t ∧ Valid t := by
  cases op with
  | insertChar c => exact typeCharacter_valid s c hv
  | insertNewline => exact typeCharacter_valid s '\n' hv
  | doBackspace => exact backspace_valid s hv

theorem applyOps_valid (ops : List EditOp) :
    ∀ s : EditorState, Valid s →
      ∃ t : EditorState, applyOps s ops = .ok t ∧ Valid t := by
  induction ops with
  | nil => exact fun s hv => ⟨s, rfl, hv⟩
  | cons op rest ih =>
    intro s hv
    obtain ⟨u, hu, hvu⟩ := applyOp_valid s op hv
    obtain ⟨t, ht, hvt⟩ := ih u hvu
    refine ⟨t, ?_, hvt⟩
    have hstep : applyOps s (op :: rest) = applyOp s op >>= fun u => applyOps u rest := rfl
    rw [hstep, hu]
    exact ht

theorem initState_valid : Valid initState := by decide

end Invariant

/-- C1: For every finite sequence of `insertChar` (non-newline),
`insertNewline` and `backspace` operations applied from the initial state
(one empty line, cursor at `(0,0)`), every operation succeeds and the
resulting document has at least one line, `cursor.row` is a valid line
index, and `cursor.col` never exceeds the length of the line at
`cursor.row`. -/
theorem buffer_invariant_holds (ops : List EditOp)
    (_hwf : ∀ op ∈ ops, OpWellFormed op) :
    ∃ t : EditorState, applyOps initState ops = .ok t ∧
      0 < t.lines.length ∧ t.row < t.lines.length ∧
        t.col ≤ (t.lines.getD t.row []).length := by
  obtain ⟨t, ht, hvt⟩ := applyOps_valid ops initState initState_valid
  exact ⟨t, ht, hvt⟩

/-- Witness for C1 at a concrete operation sequence. -/
theorem buffer_invariant_holds_witness :
    ∃ t : EditorState,
      applyOps initState
        [.insertChar 'a', .insertChar 'b', .insertNewline, .insertChar 'c',
         .doBackspace, .doBackspace, .doBackspace] = .ok t ∧
      0 < t.lines.length ∧ t.row < t.lines.length ∧
        t.col ≤ (t.lines.getD t.row []).length :=
  buffer_invariant_holds
    [.insertChar 'a', .insertChar 'b', .insertNewline, .insertChar 'c',
     .doBackspace, .doBackspace, .doBackspace]
    (by intro op hop; fin_cases hop <;> simp [OpWellFormed])

section RoundTrip

/-- C9: From any valid buffer state, `insertNewline()` followed
immediately by `backspace()` restores the document (including the
original logical line's content) and the cursor position exactly. -/
theorem newline_backspace_roundtrip (s : EditorState) (hv : Valid s) :
    ∃ t : EditorState, typeCharacter s '\n' = .ok t ∧ backspace t = .ok s := by
  obtain ⟨lines, row, col⟩ := s
  obtain ⟨hpos, hrow, hcol⟩ := hv
  simp only at hpos hrow hcol
  refine ⟨_, typeCharacter_newline_eq ⟨lines, row, col⟩ hrow, ?_⟩
  simp only
  have hL : lines.getD row [] = lines[row] := getD_eq_get _ _ hrow
  have hlenset : (lines.set row ((lines.getD row []).take col)).length = lines.length :=
    List.length_set ..
  have hlenM : ((lines.set row ((lines.getD row []).take col)).insertIdx (row + 1)
      ((lines.getD row []).drop col)).length = lines.length + 1 := by
    rw [List.length_insertIdx _ _ (by omega), hlenset]
  have hrowM : row + 1 < ((lines.set row ((lines.getD row []).take col)).insertIdx (row + 1)
      ((lines.getD row []).drop col)).length := by omega
  have hprev : ((lines.set row ((lines.getD row []).take col)).insertIdx (row + 1)
      ((lines.getD row []).drop col)).getD (row + 1 - 1) [] = (lines.getD row []).take col := by
    simp only [Nat.add_sub_cancel]
    rw [getD_eq_get _ _ (by omega)]
    exact (List.getElem_insertIdx_of_lt _ _ _ _ (Nat.lt_succ_self _) (by omega)).trans
      (List.getElem_set_self (by simpa using hrow))
  have hcurr : ((lines.set row ((lines.getD row []).take col)).insertIdx (row + 1)
      ((lines.getD row []).drop col)).getD (row + 1) [] = (lines.getD row []).drop col := by
    rw [getD_eq_get _ _ hrowM]
    exact List.getElem_insertIdx_self _ _ _ (by omega)
  rw [backspace_merge_eq _ rfl (Nat.succ_pos _) hrowM]
  dsimp only
  simp only [Except.ok.injEq, EditorState.mk.injEq]
  refine ⟨?_, by omega, ?_⟩
  · rw [hprev, hcurr, List.take_append_drop]
    simp only [Nat.add_sub_cancel]
    apply List.ext_getElem
    · rw [List.length_eraseIdx]
      simp only [List.length_set, hlenM]
      rw [if_pos (by omega)]
      omega
    · intro j h1 h2
      rw [List.getElem_eraseIdx]
      by_cases hj : j < row + 1
      · rw [dif_pos hj]
        by_cases hjr : j = row
        · subst hjr
          exact (List.getElem_set_self (by simp only [List.length_set, hlenM]; omega)).trans
            hL
        · exact (List.getElem_set_ne (by omega)
              (by simp only [List.length_set, hlenM]; omega)).trans
            ((List.getElem_insertIdx_of_lt _ _ _ _ (by omega) (by omega)).trans
              (List.getElem_set_ne (by omega) (by simpa using h2)))
      · rw [dif_neg hj]
        have hk' : (row + 1) + (j - row - 1) <
            (lines.set row ((lines.getD row []).take col)).length := by
          simp only [List.length_set]
          simp only [List.length_eraseIdx, List.length_set, hlenM] at h1
          rw [if_pos (by omega)] at h1
          omega
        have hstep := List.getElem_insertIdx_add_succ
          (lines.set row ((lines.getD row []).take col))
          ((lines.getD row []).drop col) (row + 1) (j - row - 1) hk'
        simp only [show (row + 1) + (j - row - 1) = j from by omega] at hstep
        exact (List.getElem_set_ne (by omega)
            (by simp only [List.length_set, hlenM]; omega)).trans
          (hstep.trans (List.getElem_set_ne (by omega) (by simpa using h2)))
  · rw [hprev]
    simp only [List.length_take]
    omega

/-- Witness for C9 on a concrete valid state. -/
theorem newline_backspace_roundtrip_witness :
    ∃ t : EditorState,
      typeCharacter ⟨[['a', 'b', 'c']], 0, 2⟩ '\n' = .ok t ∧
        backspace t = .ok ⟨[['a', 'b', 'c']], 0, 2⟩ :=
  newline_backspace_roundtrip ⟨[['a', 'b', 'c']], 0, 2⟩ (by decide)

end RoundTrip

section FailFast

/-- C8 counterexample: `_type_character` invoked with `cursor.row = lineCount`
(an edit on a nonexistent line) does not signal an error; it silently repairs
the state by appending an empty line and performs the insertion. -/
theorem typeCharacter_silently_repairs :
    typeCharacter ⟨[[]], 1, 0⟩ 'a' = .ok ⟨[[], ['a']], 1, 1⟩ := by rfl

/-- C8 (amended): when `cursor.row` equals the line count, `_type_character`
silently appends an empty line and performs the edit (no error); only when
`cursor.row` strictly exceeds the line count does it fail with an
`IndexError`. -/
theorem typeCharacter_repair_or_fail (s : EditorState) (c : Char) :
    (s.row = s.lines.length → ∃ t : EditorState, typeCharacter s c = .ok t) ∧
      (s.lines.length < s.row →
        typeCharacter s c = .error "IndexError: list index out of range") := by
  constructor
  · intro h
    have hpad : s.lines.length ≤ s.row := Nat.le_of_eq h.symm
    have h2 : s.row < s.lines.length + 1 := by omega
    by_cases hc : c = '\n' <;>
      exact ⟨_, by simp [typeCharacter, hpad, h2, hc] <;> rfl⟩
  · intro h
    have hpad : s.lines.length ≤ s.row := Nat.le_of_lt h
    have h2 : ¬ s.row < s.lines.length + 1 := by omega
    simp [typeCharacter, hpad, h2]

/-- Witness for the amended C8: both branches at concrete states. -/
theorem typeCharacter_repair_or_fail_witness :
    (∃ t : EditorState, typeCharacter ⟨[[]], 1, 0⟩ 'a' = .ok t) ∧
      typeCharacter ⟨[[]], 2, 0⟩ 'a' = .error "IndexError: list index out of range" :=
  ⟨(typeCharacter_repair_or_fail ⟨[[]], 1, 0⟩ 'a').1 rfl,
   (typeCharacter_repair_or_fail ⟨[[]], 2, 0⟩ 'a').2 (by decide)⟩

end FailFast

section FrameTicks

/-- Python `int()` applied to an exact rational value: truncation toward
zero (`num // den` in T-division). The float `duration * fps` of the
source is modelled as exact rational arithmetic; the counterexample below
uses values at which binary floating point is exact, so the discrepancy
with rounding is not a float artefact. -/
def pyInt (q : ℚ) : ℤ := q.num.tdiv q.den

/-- `VimVideoGenerator._add_frame`: `num_frames = max(1, int(duration *
self.config.fps))` — the number of identical frames written for one
rendered state. -/
def addFrameTicks (duration : ℚ) (fps : ℕ) : ℕ :=
  max 1 (pyInt (duration * fps)).toNat

/-- On non-negative rationals Python's truncating `int()` agrees with the
floor. -/
theorem pyInt_eq_floor (q : ℚ) (hq : 0 ≤ q) : pyInt q = ⌊q⌋ := by
  unfold pyInt
  have hnum : 0 ≤ q.num := Rat.num_nonneg.mpr hq
  rw [Int.tdiv_eq_ediv hnum (Int.natCast_nonneg _), ← Rat.floor_def]

/-- C5 counterexample: at `duration = 3/2`, `fps = 1` the code emits
`max(1, int(1.5)) = 1` frame, while the claimed formula
`max(1, round(duration × fps))` gives `2`. -/
theorem addFrameTicks_round_counterexample :
    addFrameTicks (3 / 2) 1 = 1 ∧
      max 1 (round ((3 / 2 : ℚ) * ((1 : ℕ) : ℚ))).toNat = 2 := by
  have h1 : ((3 / 2 : ℚ) * ((1 : ℕ) : ℚ)) = 3 / 2 := by push_cast; ring
  constructor
  · unfold addFrameTicks
    rw [h1, pyInt_eq_floor _ (by norm_num),
      show ⌊(3 / 2 : ℚ)⌋ = 1 by rw [Int.floor_eq_iff] <;> norm_num]
    decide
  · have h2 : round ((3 / 2 : ℚ)) = 2 := by
      rw [round_eq, show (3 / 2 : ℚ) + 1 / 2 = 2 by ring]
      simp
    rw [h1, h2]
    decide

/-- C5 (amended): for every non-negative duration and frame rate, the
number of frames emitted is `max(1, ⌊duration × fps⌋)` — `int()`
truncates (= floor on non-negative values); it does not round. -/
theorem addFrameTicks_eq_floor (d : ℚ) (fps : ℕ) (hd : 0 ≤ d) :
    addFrameTicks d fps = max 1 (⌊d * (fps : ℚ)⌋).toNat := by
  unfold addFrameTicks
  rw [pyInt_eq_floor _ (mul_nonneg hd (by positivity))]

/-- Witness for the amended C5 at `duration = 2`, `fps = 30`. -/
theorem addFrameTicks_eq_floor_witness :
    (0 : ℚ) ≤ 2 ∧ addFrameTicks 2 30 = max 1 (⌊(2 : ℚ) * ((30 : ℕ) : ℚ)⌋).toNat :=
  ⟨by norm_num, addFrameTicks_eq_floor 2 30 (by norm_num)⟩

end FrameTicks

section AutoScroll

/-- `visible_rows = (self.config.height - 100) // (self.char_height + 4)`
from `_draw_content`, with Python's floor division on integers. -/
def visibleRows (heightPx cellHeightPx : ℤ) : ℤ :=
  (heightPx - 100).fdiv (cellHeightPx + 4)

/-- The auto-scroll update of `_draw_content`: scroll down just enough to
reveal the cursor at the bottom, or up to reveal it at the top, else
leave `scroll_offset` unchanged. -/
def autoScroll (scrollOffset cursorDisplayRow vr : ℤ) : ℤ :=
  if scrollOffset + vr ≤ cursorDisplayRow then cursorDisplayRow - vr + 1
  else if cursorDisplayRow < scrollOffset then cursorDisplayRow
  else scrollOffset

/-- C3: after the auto-scroll update, provided `visibleRows ≥ 1` and the
previous `scrollOffset ≥ 0`, the cursor's display row lies inside the
visible window `[scrollOffset, scrollOffset + visibleRows)`. -/
theorem autoScroll_keeps_cursor_visible (heightPx cellHeightPx so cdr : ℤ)
    (hvr : 1 ≤ visibleRows heightPx cellHeightPx) (_hso : 0 ≤ so) :
    autoScroll so cdr (visibleRows heightPx cellHeightPx) ≤ cdr ∧
      cdr < autoScroll so cdr (visibleRows heightPx cellHeightPx) +
        visibleRows heightPx cellHeightPx := by
  unfold autoScroll
  split_ifs <;> omega

/-- Witness for C3: a 1000-px-high viewport with 20-px cells
(`visibleRows = 37`), scroll offset 0, cursor display row 50. -/
theorem autoScroll_keeps_cursor_visible_witness :
    (1 ≤ visibleRows 1000 20 ∧ (0 : ℤ) ≤ 0) ∧
      autoScroll 0 50 (visibleRows 1000 20) ≤ 50 ∧
        50 < autoScroll 0 50 (visibleRows 1000 20) + visibleRows 1000 20 :=
  ⟨⟨by decide, le_refl 0⟩, autoScroll_keeps_cursor_visible 1000 20 0 50 (by decide) (le_refl 0)⟩

end AutoScroll

section Wrapping

/-- The hard-split loop of `_wrap_line` (`while len(word) > width:
wrapped.append(word[:width]); word = word[width:]`), with structural fuel.
Each pass consumes `width ≥ 1` characters, so `word.length` passes always
suffice; the extra `0 < width` guard only cuts the `width = 0` case, where
the Python loop does not terminate (every claim below assumes a width
≥ 1, on which this model agrees with the source exactly). -/
def splitChunksGo (width : Nat) : Nat → List Char → List (List Char) × List Char
  | 0, word => ([], word)
  | fuel + 1, word =>
    if width < word.length ∧ 0 < width then
      let rest := splitChunksGo width fuel (word.drop width)
      (word.take width :: rest.1, rest.2)
    else ([], word)

/-- Chunks of size `width` plus the final short remainder of a long word. -/
def splitChunks (width : Nat) (word : List Char) : List (List Char) × List Char :=
  splitChunksGo width word.length word

/-- One iteration of the word loop in `_wrap_line`: the accumulator is
`(wrapped, current_line)`.  Either the word (with a joining space) still
fits on `current_line`, or `current_line` is flushed and the word starts
the next line, hard-split first if it alone exceeds the width. -/
def wrapStep (width : Nat) (acc : List (List Char) × List Char) (word : List Char) :
    List (List Char) × List Char :=
  if acc.2.length + word.length + 1 ≤ width then
    if acc.2 ≠ [] then (acc.1, acc.2 ++ ' ' :: word)
    else (acc.1, word)
  else
    let flushed := if acc.2 ≠ [] then acc.1 ++ [acc.2] else acc.1
    if width < word.length then
      let split := splitChunks width word
      (flushed ++ split.1, split.2)
    else (flushed, word)

/-- `VimVideoGenerator._wrap_line`: a short line is returned verbatim;
otherwise the words (split on single spaces, exactly like Python's
`text.split(' ')`) are folded through `wrapStep`, the last `current_line`
is flushed, and an empty result becomes `[""]`. -/
def wrapLine (text : List Char) (width : Nat) : List (List Char) :=
  if text.length ≤ width then [text]
  else
    let res := (text.splitOn ' ').foldl (wrapStep width) ([], [])
    let wrapped := if res.2 ≠ [] then res.1 ++ [res.2] else res.1
    if wrapped ≠ [] then wrapped else [[]]

theorem splitChunksGo_bound (width : Nat) (hw : 0 < width) :
    ∀ (fuel : Nat) (word : List Char), word.length ≤ fuel + width →
      (∀ c ∈ (splitChunksGo width fuel word).1, c.length ≤ width) ∧
        (splitChunksGo width fuel word).2.length ≤ width := by
  intro fuel
  induction fuel with
  | zero =>
    intro word hfuel
    exact ⟨by simp [splitChunksGo], by simpa [splitChunksGo] using hfuel⟩
  | succ fuel ih =>
    intro word hfuel
    by_cases h : width < word.length ∧ 0 < word.length ∧ 0 < width
    · have hguard : width < word.length ∧ 0 < width := ⟨h.1, h.2.2⟩
      obtain ⟨ih1, ih2⟩ := ih (word.drop width) (by simp only [List.length_drop]; omega)
      constructor
      · intro c hc
        simp only [splitChunksGo, if_pos hguard] at hc
        rcases List.mem_cons.mp hc with hc | hc
        · subst hc; simp only [List.length_take]; omega
        · exact ih1 c hc
      · simpa only [splitChunksGo, if_pos hguard] using ih2
    · have hguard : ¬ (width < word.length ∧ 0 < width) := by omega
      refine ⟨by simp [splitChunksGo, if_neg hguard], ?_⟩
      simp only [splitChunksGo, if_neg hguard]
      omega

theorem splitChunks_bound (width : Nat) (hw : 0 < width) (word : List Char) :
    (∀ c ∈ (splitChunks width word).1, c.length ≤ width) ∧
      (splitChunks width word).2.length ≤ width :=
  splitChunksGo_bound width hw word.length word (by omega)

/-- The invariant carried through `_wrap_line`'s word loop: every flushed
display line, and the pending `current_line`, fit within `width`. -/
def WrapInv (width : Nat) (acc : List (List Char) × List Char) : Prop :=
  (∀ c ∈ acc.1, c.length ≤ width) ∧ acc.2.length ≤ width

theorem wrapStep_inv (width : Nat) (hw : 0 < width)
    (acc : List (List Char) × List Char) (word : List Char)
    (h : WrapInv width acc) : WrapInv width (wrapStep width acc word) := by
  obtain ⟨h1, h2⟩ := h
  unfold wrapStep
  by_cases hfit : acc.2.length + word.length + 1 ≤ width
  · rw [if_pos hfit]
    by_cases hne : acc.2 ≠ []
    · rw [if_pos hne]
      refine ⟨h1, ?_⟩
      simp only [List.length_append, List.length_cons]
      omega
    · rw [if_neg hne]
      refine ⟨h1, ?_⟩
      have : acc.2 = [] := by simpa using hne
      simp only [this, List.length_nil] at hfit
      dsimp only
      omega
  · rw [if_neg hfit]
    have hflush : ∀ c ∈ (if acc.2 ≠ [] then acc.1 ++ [acc.2] else acc.1), c.length ≤ width := by
      intro c hc
      by_cases hne : acc.2 ≠ []
      · rw [if_pos hne] at hc
        rcases List.mem_append.mp hc with hc | hc
        · exact h1 c hc
        · simp only [List.mem_singleton] at hc; subst hc; exact h2
      · rw [if_neg hne] at hc; exact h1 c hc
    by_cases hlong : width < word.length
    · rw [if_pos hlong]
      obtain ⟨hc1, hc2⟩ := splitChunks_bound width hw word
      refine ⟨?_, hc2⟩
      intro c hc
      rcases List.mem_append.mp hc with hc | hc
      · exact hflush c hc
      · exact hc1 c hc
    · rw [if_neg hlong]
      exact ⟨hflush, by dsimp only; omega⟩

theorem foldl_wrapStep_inv (width : Nat) (hw : 0 < width) :
    ∀ (words : List (List Char)) (acc : List (List Char) × List Char),
      WrapInv width acc → WrapInv width (words.foldl (wrapStep width) acc) := by
  intro words
  induction words with
  | nil => exact fun acc h => h
  | cons w ws ih =>
    intro acc h
    exact ih (wrapStep width acc w) (wrapStep_inv width hw acc w h)

theorem wrapLine_bound (text : List Char) (width : Nat) (hw : 0 < width) :
    ∀ s ∈ wrapLine text width, s.length ≤ width := by
  unfold wrapLine
  by_cases hshort : text.length ≤ width
  · rw [if_pos hshort]
    intro s hs
    simp only [List.mem_singleton] at hs
    subst hs; exact hshort
  · rw [if_neg hshort]
    have hinv : WrapInv width ((text.splitOn ' ').foldl (wrapStep width) ([], [])) :=
      foldl_wrapStep_inv width hw _ ([], []) ⟨by simp, by simp⟩
    obtain ⟨h1, h2⟩ := hinv
    intro s hs
    set res := (text.splitOn ' ').foldl (wrapStep width) ([], []) with hres
    by_cases hne : res.2 ≠ []
    · simp only [if_pos hne] at hs
      have hw2 : res.1 ++ [res.2] ≠ [] := by simp
      rw [if_pos hw2] at hs
      rcases List.mem_append.mp hs with hs | hs
      · exact h1 s hs
      · simp only [List.mem_singleton] at hs; subst hs; exact h2
    · simp only [if_neg hne] at hs
      by_cases hres1 : res.1 ≠ []
      · rw [if_pos hres1] at hs
        exact h1 s hs
      · rw [if_neg hres1] at hs
        simp only [List.mem_singleton] at hs
        subst hs; simp

/-- C2: wrapping is deterministic (a pure function of the line and the
width), and for every width `columns − 1 ≥ 1` every produced DisplayLine
has length at most `columns − 1`. -/
theorem wrap_deterministic_and_bounded (text : List Char) (columns : Nat)
    (h : 1 ≤ columns - 1) :
    wrapLine text (columns - 1) = wrapLine text (columns - 1) ∧
      ∀ s ∈ wrapLine text (columns - 1), s.length ≤ columns - 1 :=
  ⟨rfl, wrapLine_bound text (columns - 1) h⟩

/-- Witness for C2: an 80-column viewport and a concrete line. -/
theorem wrap_deterministic_and_bounded_witness :
    (1 : Nat) ≤ 80 - 1 ∧
      (wrapLine ('h' :: 'i' :: []) (80 - 1) = wrapLine ('h' :: 'i' :: []) (80 - 1) ∧
        ∀ s ∈ wrapLine ('h' :: 'i' :: []) (80 - 1), s.length ≤ 80 - 1) :=
  ⟨by decide, wrap_deterministic_and_bounded ('h' :: 'i' :: []) 80 (by decide)⟩

end Wrapping

section CursorMapping

/-- The cursor-locating loop of `_draw_content` (lines 513–524): walk the
wrapped segments with a running `char_count`; the first segment `j` with
`char_count + len(segment) ≥ cursor_col` is the cursor's display row and
`cursor_col - char_count` its display column; `char_count` then advances
by `len(segment) + 1` (the `+1` is the source's accounting for the space
between wrapped words).  If the loop finishes without a hit, the `else`
of Python's `for` places the cursor at the end of the last segment. -/
def cursorScan (col : Nat) (fb : Nat × Nat) : Nat → Nat → List (List Char) → Nat × Nat
  | _, _, [] => fb
  | j, cc, seg :: rest =>
    if cc + seg.length ≥ col then (j, col - cc)
    else cursorScan col fb (j + 1) (cc + seg.length + 1) rest

/-- Cursor display position within the wrapped segments of one logical
line, including the for-else fallback to the end of the last segment. -/
def findCursor (segs : List (List Char)) (col : Nat) : Nat × Nat :=
  cursorScan col (segs.length - 1, (segs.getLastD []).length) 0 0 segs

/-- The cumulative consumed-character offset of segment `j`: each earlier
segment contributes its length plus one. -/
def cumOff (segs : List (List Char)) (j : Nat) : Nat :=
  ((segs.take j).map (fun s => s.length + 1)).sum

theorem cumOff_zero (segs : List (List Char)) : cumOff segs 0 = 0 := rfl

theorem cumOff_cons_succ (seg : List Char) (rest : List (List Char)) (j : Nat) :
    cumOff (seg :: rest) (j + 1) = seg.length + 1 + cumOff rest j := by
  simp only [cumOff, List.take_succ_cons, List.map_cons, List.sum_cons]

theorem cursorScan_first (col : Nat) (fb : Nat × Nat) :
    ∀ (segs : List (List Char)) (j cc i : Nat), i < segs.length →
      col ≤ cc + cumOff segs i + (segs.getD i []).length →
      (∀ k, k < i → cc + cumOff segs k + (segs.getD k []).length < col) →
      cursorScan col fb j cc segs = (j + i, col - (cc + cumOff segs i)) := by
  intro segs
  induction segs with
  | nil => intro j cc i hi; exact absurd hi (by simp)
  | cons seg rest ih =>
    intro j cc i hi hin hmin
    cases i with
    | zero =>
      simp only [cumOff_zero, Nat.add_zero, List.getD_cons_zero] at hin
      simp only [cursorScan, if_pos (by omega : cc + seg.length ≥ col)]
      simp only [Nat.add_zero, cumOff_zero]
    | succ i =>
      have h0 : cc + seg.length < col := by
        have := hmin 0 (Nat.succ_pos _)
        simpa [cumOff_zero] using this
      simp only [cursorScan, if_neg (by omega : ¬ cc + seg.length ≥ col)]
      have hrec := ih (j + 1) (cc + seg.length + 1) i (by simpa using hi)
        (by
          rw [cumOff_cons_succ] at hin
          simpa [List.getD_cons_succ] using (by omega : col ≤
            cc + seg.length + 1 + cumOff rest i + ((seg :: rest).getD (i + 1) []).length))
        (by
          intro k hk
          have := hmin (k + 1) (by omega)
          rw [cumOff_cons_succ] at this
          simpa [List.getD_cons_succ] using (by omega : cc + seg.length + 1 +
            cumOff rest k + ((seg :: rest).getD (k + 1) []).length < col))
      rw [hrec, cumOff_cons_succ]
      refine Prod.ext (by omega) (by dsimp only; omega)

theorem cursorScan_fallback (col : Nat) (fb : Nat × Nat) :
    ∀ (segs : List (List Char)) (j cc : Nat),
      (∀ i, i < segs.length → cc + cumOff segs i + (segs.getD i []).length < col) →
      cursorScan col fb j cc segs = fb := by
  intro segs
  induction segs with
  | nil => intro j cc _; rfl
  | cons seg rest ih =>
    intro j cc hall
    have h0 : cc + seg.length < col := by
      have := hall 0 (Nat.succ_pos _)
      simpa [cumOff_zero] using this
    simp only [cursorScan, if_neg (by omega : ¬ cc + seg.length ≥ col)]
    refine ih (j + 1) (cc + seg.length + 1) ?_
    intro i hi
    have := hall (i + 1) (by simpa using hi)
    rw [cumOff_cons_succ] at this
    simpa [List.getD_cons_succ] using (by omega : cc + seg.length + 1 +
      cumOff rest i + ((seg :: rest).getD (i + 1) []).length < col)

theorem getLastD_eq_getD (l : List (List Char)) :
    l.getLastD [] = l.getD (l.length - 1) [] := by
  rw [List.getLastD_eq_getLast?, List.getLast?_eq_getElem?, List.getD_eq_getElem?_getD]

theorem wrapLine_ne_nil (text : List Char) (width : Nat) : wrapLine text width ≠ [] := by
  unfold wrapLine
  by_cases hshort : text.length ≤ width
  · simp [hshort]
  · rw [if_neg hshort]
    by_cases hne : (if ((text.splitOn ' ').foldl (wrapStep width) ([], [])).2 ≠ [] then
        ((text.splitOn ' ').foldl (wrapStep width) ([], [])).1 ++
          [((text.splitOn ' ').foldl (wrapStep width) ([], [])).2]
      else ((text.splitOn ' ').foldl (wrapStep width) ([], [])).1) ≠ []
    · rw [if_pos hne]; exact hne
    · rw [if_neg hne]; simp

/-- C4: for a cursor column on a wrapped logical line, the cursor maps to
the first DisplayLine whose cumulative consumed-character range reaches
`cursor.col`, at display column `cursor.col` minus that segment's
cumulative offset; if `cursor.col` exceeds all tracked ranges, the cursor
is placed at the end of the last wrapped segment; and in every case the
resulting display row is a valid segment index and the display column is
at most the chosen DisplayLine's length. -/
theorem cursor_mapping (line : List Char) (w col : Nat) (hw : 1 ≤ w)
    (segs : List (List Char)) (hsegs : segs = wrapLine line w) :
    (∀ i, i < segs.length →
      col ≤ cumOff segs i + (segs.getD i []).length →
      (∀ k, k < i → cumOff segs k + (segs.getD k []).length < col) →
      findCursor segs col = (i, col - cumOff segs i) ∧
        col - cumOff segs i ≤ (segs.getD i []).length) ∧
    ((∀ i, i < segs.length → cumOff segs i + (segs.getD i []).length < col) →
      findCursor segs col = (segs.length - 1, (segs.getLastD []).length)) ∧
    (findCursor segs col).1 < segs.length ∧
    (findCursor segs col).2 ≤ (segs.getD (findCursor segs col).1 []).length := by
  have hne : segs ≠ [] := hsegs ▸ wrapLine_ne_nil line w
  have hlen : 0 < segs.length := List.length_pos.mpr hne
  have hfirst : ∀ i, i < segs.length →
      col ≤ cumOff segs i + (segs.getD i []).length →
      (∀ k, k < i → cumOff segs k + (segs.getD k []).length < col) →
      findCursor segs col = (i, col - cumOff segs i) ∧
        col - cumOff segs i ≤ (segs.getD i []).length := by
    intro i hi hin hmin
    have := cursorScan_first col (segs.length - 1, (segs.getLastD []).length) segs 0 0 i hi
      (by simpa using hin) (by intro k hk; simpa using hmin k hk)
    constructor
    · simpa [findCursor] using this
    · omega
  have hfall : (∀ i, i < segs.length → cumOff segs i + (segs.getD i []).length < col) →
      findCursor segs col = (segs.length - 1, (segs.getLastD []).length) := by
    intro hall
    exact cursorScan_fallback col _ segs 0 0 (by intro i hi; simpa using hall i hi)
  refine ⟨hfirst, hfall, ?_⟩
  by_cases hex : ∃ i, i < segs.length ∧ col ≤ cumOff segs i + (segs.getD i []).length
  · obtain ⟨hi0len, hi0in⟩ := Nat.find_spec hex
    have hmin : ∀ k, k < Nat.find hex →
        cumOff segs k + (segs.getD k []).length < col := by
      intro k hk
      have hnot := Nat.find_min hex hk
      push_neg at hnot
      exact hnot (by omega)
    obtain ⟨heq, hble⟩ := hfirst (Nat.find hex) hi0len hi0in hmin
    rw [heq]
    exact ⟨hi0len, hble⟩
  · push_neg at hex
    rw [hfall hex]
    refine ⟨by omega, ?_⟩
    dsimp only
    rw [getLastD_eq_getD]

end CursorMapping

section SpecialSequences

/-- `os.path.commonprefix` on two strings: the longest common prefix. -/
def commonPfx : List Char → List Char → List Char
  | a :: as, b :: bs => if a = b then a :: commonPfx as bs else []
  | _, _ => []

theorem commonPfx_length_le_left : ∀ t c : List Char, (commonPfx t c).length ≤ t.length := by
  intro t
  induction t with
  | nil => intro c; cases c <;> simp [commonPfx]
  | cons a as ih =>
    intro c
    cases c with
    | nil => simp [commonPfx]
    | cons b bs =>
      by_cases hab : a = b
      · simpa [commonPfx, hab] using ih bs
      · simp [commonPfx, hab]

theorem commonPfx_length_le_right : ∀ t c : List Char, (commonPfx t c).length ≤ c.length := by
  intro t
  induction t with
  | nil => intro c; cases c <;> simp [commonPfx]
  | cons a as ih =>
    intro c
    cases c with
    | nil => simp [commonPfx]
    | cons b bs =>
      by_cases hab : a = b
      · simpa [commonPfx, hab] using ih bs
      · simp [commonPfx, hab]

theorem commonPfx_take_left : ∀ t c : List Char, t.take (commonPfx t c).length = commonPfx t c := by
  intro t
  induction t with
  | nil => intro c; cases c <;> simp [commonPfx]
  | cons a as ih =>
    intro c
    cases c with
    | nil => simp [commonPfx]
    | cons b bs =>
      by_cases hab : a = b
      · simp [commonPfx, hab, ih bs]
      · simp [commonPfx, hab]

theorem commonPfx_append_drop_right :
    ∀ t c : List Char, commonPfx t c ++ c.drop (commonPfx t c).length = c := by
  intro t
  induction t with
  | nil => intro c; cases c <;> simp [commonPfx]
  | cons a as ih =>
    intro c
    cases c with
    | nil => simp [commonPfx]
    | cons b bs =>
      by_cases hab : a = b
      · simpa [commonPfx, hab] using ih bs
      · simp [commonPfx, hab]

/-- Typing a run of characters one `_type_character` call at a time. -/
def typeChars : List Char → EditorState → Except String EditorState
  | [], s => .ok s
  | c :: cs, s => do typeChars cs (← typeCharacter s c)

/-- `n` consecutive `_backspace` calls (`for _ in range(n)`). -/
def backspaceN : Nat → EditorState → Except String EditorState
  | 0, s => .ok s
  | n + 1, s => do backspaceN n (← backspace s)

/-- `VimVideoGenerator._type_special_sequence`: type the typo, backspace
the difference with the common prefix, then type the correction's suffix.
(The interleaved `_add_frame` calls only write video frames and do not
touch the buffer.) -/
def typeSpecialSequence (s : EditorState) (typo correct : List Char) :
    Except String EditorState := do
  let s1 ← typeChars typo s
  let s2 ← backspaceN (typo.length - (commonPfx typo correct).length) s1
  typeChars (correct.drop (commonPfx typo correct).length) s2

/-- A value of the `special_sequences` config table: either a two-element
`(typo, correct)` pair, or a plain string. -/
inductive SeqValue where
  | pair (typo correct : List Char)
  | plain (v : List Char)
deriving DecidableEq

/-- Lines 292–297 of `_type_text`: a two-element pair is `(typo, correct)`;
a plain string value is the typo and the pattern key itself the
correction. -/
def resolveSequence (pat : List Char) : SeqValue → List Char × List Char
  | .pair t c => (t, c)
  | .plain v => (v, pat)

/-- The ordered first-match scan over `special_sequences.items()` against
the rest of the current input line (`line[char_idx:].startswith(pattern)`). -/
def findSpecial : List (List Char × SeqValue) → List Char →
    Option (List Char × List Char × List Char)
  | [], _ => none
  | (pat, v) :: rest, r =>
    if pat.isPrefixOf r then
      some ((resolveSequence pat v).1, (resolveSequence pat v).2, pat)
    else findSpecial rest r

/-- One special-sequence step of the `_type_text` loop: when a pattern
matches at `char_idx`, run `_type_special_sequence` and advance
`char_idx` by the matched key's length. -/
def specialStep (seqs : List (List Char × SeqValue)) (line : List Char) (idx : Nat)
    (s : EditorState) : Option (Except String EditorState × Nat) :=
  match findSpecial seqs (line.drop idx) with
  | some (t, c, pat) => some (typeSpecialSequence s t c, idx + pat.length)
  | none => none

theorem set_getD_self (l : List (List Char)) (n : Nat) (h : n < l.length) :
    l.set n (l.getD n []) = l := by
  apply List.ext_getElem
  · simp
  · intro j h1 h2
    by_cases hj : n = j
    · subst hj
      rw [List.getElem_set_self, getD_eq_get _ _ h]
    · rw [List.getElem_set_ne hj]

theorem typeChars_spec : ∀ (cs : List Char) (s : EditorState), Valid s → '\n' ∉ cs →
    typeChars cs s = .ok ⟨s.lines.set s.row
        ((s.lines.getD s.row []).take s.col ++ cs ++ (s.lines.getD s.row []).drop s.col),
      s.row, s.col + cs.length⟩ := by
  intro cs
  induction cs with
  | nil =>
    intro s hv _
    obtain ⟨hpos, hrow, hcol⟩ := hv
    show Except.ok s = _
    rw [List.append_nil, List.take_append_drop, set_getD_self _ _ hrow]
    rfl
  | cons c cs ih =>
    intro s hv hnl
    have hc : c ≠ '\n' := fun h => hnl (h ▸ List.mem_cons_self c cs)
    have hcs : '\n' ∉ cs := fun h => hnl (List.mem_cons_of_mem c h)
    obtain ⟨hpos, hrow, hcol⟩ := hv
    have hstep := typeCharacter_insert_eq s c hrow hc
    obtain ⟨t, ht, hvt⟩ := typeCharacter_valid s c ⟨hpos, hrow, hcol⟩
    rw [hstep] at ht
    have hts : (⟨s.lines.set s.row
        ((s.lines.getD s.row []).take s.col ++ c :: (s.lines.getD s.row []).drop s.col),
        s.row, s.col + 1⟩ : EditorState) = t := by
      injection ht
    have hv1 : Valid ⟨s.lines.set s.row
        ((s.lines.getD s.row []).take s.col ++ c :: (s.lines.getD s.row []).drop s.col),
        s.row, s.col + 1⟩ := hts ▸ hvt
    have hbind : typeChars (c :: cs) s = typeCharacter s c >>= fun x => typeChars cs x := rfl
    rw [hbind, hstep]
    show typeChars cs _ = _
    rw [ih _ hv1 hcs]
    have hA : ((s.lines.getD s.row []).take s.col).length = s.col := by
      rw [List.length_take]; omega
    have hgd : (s.lines.set s.row
        ((s.lines.getD s.row []).take s.col ++ c :: (s.lines.getD s.row []).drop s.col)).getD
          s.row [] =
        (s.lines.getD s.row []).take s.col ++ c :: (s.lines.getD s.row []).drop s.col :=
      getD_set_self _ _ _ hrow
    rw [Except.ok.injEq, EditorState.mk.injEq]
    refine ⟨?_, rfl, by simp [List.length_cons]; omega⟩
    dsimp only
    rw [hgd, List.set_set]
    have hidx : s.col + 1 = ((s.lines.getD s.row []).take s.col).length + 1 := by rw [hA]
    rw [hidx, List.take_append, List.drop_append]
    simp

theorem backspaceN_spec : ∀ (n : Nat) (u pre post : List Char) (s : EditorState),
    n ≤ u.length →
    s.row < s.lines.length →
    s.lines.getD s.row [] = pre ++ u ++ post →
    s.col = pre.length + u.length →
    backspaceN n s = .ok ⟨s.lines.set s.row (pre ++ u.take (u.length - n) ++ post),
      s.row, pre.length + (u.length - n)⟩ := by
  intro n
  induction n with
  | zero =>
    intro u pre post s hn hrow hline hcol
    show Except.ok s = _
    rw [Nat.sub_zero, List.take_length, ← hline, set_getD_self _ _ hrow, ← hcol]
  | succ n ih =>
    intro u pre post s hn hrow hline hcol
    have hu : 0 < u.length := by omega
    have hcolpos : 0 < s.col := by omega
    have hstep := backspace_inline_eq s hcolpos hrow
    have hbind : backspaceN (n + 1) s = backspace s >>= fun x => backspaceN n x := rfl
    rw [hbind, hstep]
    show backspaceN n _ = _
    have htake : (s.lines.getD s.row []).take (s.col - 1) =
        pre ++ u.take (u.length - 1) := by
      rw [hline, hcol, List.append_assoc,
        show pre.length + u.length - 1 = pre.length + (u.length - 1) from by omega,
        List.take_append, List.take_append_of_le_length (by omega)]
    have hdrop : (s.lines.getD s.row []).drop s.col = post := by
      rw [hline, hcol, List.append_assoc, List.drop_append, List.drop_left]
    rw [htake, hdrop]
    have hlen' : (u.take (u.length - 1)).length = u.length - 1 := by
      rw [List.length_take]; omega
    rw [ih (u.take (u.length - 1)) pre post _ (by omega)
      (by simpa using hrow)
      (getD_set_self _ _ _ hrow)
      (by dsimp only; rw [hlen']; omega)]
    rw [Except.ok.injEq, EditorState.mk.injEq]
    refine ⟨?_, rfl, by rw [hlen']; omega⟩
    dsimp only
    rw [List.set_set, hlen', List.take_take,
      show (u.length - 1 - n) ⊓ (u.length - 1) = u.length - (n + 1) from by omega]

theorem ok_bind {α β : Type} (a : α) (f : α → Except String β) :
    (Except.ok a >>= f : Except String β) = f a := rfl

theorem typeSpecialSequence_spec (s : EditorState) (hv : Valid s)
    (typo correct : List Char) (ht : '\n' ∉ typo) (hc : '\n' ∉ correct) :
    typeSpecialSequence s typo correct =
      .ok ⟨s.lines.set s.row ((s.lines.getD s.row []).take s.col ++ correct ++
            (s.lines.getD s.row []).drop s.col), s.row, s.col + correct.length⟩ := by
  obtain ⟨hpos, hrow, hcol⟩ := hv
  have hA : ((s.lines.getD s.row []).take s.col).length = s.col := by
    rw [List.length_take]; omega
  have hcpt : (commonPfx typo correct).length ≤ typo.length := commonPfx_length_le_left ..
  have hcpc : (commonPfx typo correct).length ≤ correct.length := commonPfx_length_le_right ..
  have h1 := typeChars_spec typo s ⟨hpos, hrow, hcol⟩ ht
  have hbind : typeSpecialSequence s typo correct =
      typeChars typo s >>= fun s1 =>
        backspaceN (typo.length - (commonPfx typo correct).length) s1 >>= fun s2 =>
          typeChars (correct.drop (commonPfx typo correct).length) s2 := rfl
  rw [hbind, h1, ok_bind]
  have h2 := backspaceN_spec (typo.length - (commonPfx typo correct).length) typo
    ((s.lines.getD s.row []).take s.col) ((s.lines.getD s.row []).drop s.col)
    ⟨s.lines.set s.row ((s.lines.getD s.row []).take s.col ++ typo ++
        (s.lines.getD s.row []).drop s.col), s.row, s.col + typo.length⟩
    (by omega) (by simpa using hrow) (getD_set_self _ _ _ hrow)
    (by dsimp only; omega)
  rw [h2, ok_bind]
  dsimp only
  have htk : typo.take (typo.length - (typo.length - (commonPfx typo correct).length)) =
      commonPfx typo correct := by
    rw [show typo.length - (typo.length - (commonPfx typo correct).length) =
      (commonPfx typo correct).length from by omega, commonPfx_take_left]
  rw [htk, List.set_set]
  have hlin2 : (s.lines.set s.row ((s.lines.getD s.row []).take s.col ++
      commonPfx typo correct ++ (s.lines.getD s.row []).drop s.col)).getD s.row [] =
      (s.lines.getD s.row []).take s.col ++ commonPfx typo correct ++
        (s.lines.getD s.row []).drop s.col := getD_set_self _ _ _ hrow
  have hv2 : Valid ⟨s.lines.set s.row ((s.lines.getD s.row []).take s.col ++
      commonPfx typo correct ++ (s.lines.getD s.row []).drop s.col), s.row,
      ((s.lines.getD s.row []).take s.col).length +
        (typo.length - (typo.length - (commonPfx typo correct).length))⟩ := by
    refine ⟨by simpa using hpos, by simpa using hrow, ?_⟩
    dsimp only
    rw [hlin2]
    simp only [List.length_append]
    omega
  have hsfx : '\n' ∉ correct.drop (commonPfx typo correct).length :=
    fun h => hc (List.mem_of_mem_drop h)
  rw [typeChars_spec _ _ hv2 hsfx]
  rw [Except.ok.injEq, EditorState.mk.injEq]
  dsimp only
  rw [hlin2, List.set_set]
  have hcol2 : ((s.lines.getD s.row []).take s.col).length +
      (typo.length - (typo.length - (commonPfx typo correct).length)) =
      ((s.lines.getD s.row []).take s.col ++ commonPfx typo correct).length := by
    simp only [List.length_append]
    omega
  refine ⟨?_, rfl, ?_⟩
  · rw [hcol2,
      show (s.lines.getD s.row []).take s.col ++ commonPfx typo correct ++
          (s.lines.getD s.row []).drop s.col =
        ((s.lines.getD s.row []).take s.col ++ commonPfx typo correct) ++
          (s.lines.getD s.row []).drop s.col from rfl,
      List.take_left, List.drop_left]
    rw [List.append_assoc ((s.lines.getD s.row []).take s.col) (commonPfx typo correct),
      show commonPfx typo correct ++ correct.drop (commonPfx typo correct).length = correct
        from commonPfx_append_drop_right typo correct]
  · rw [hcol2]
    simp only [List.length_append, List.length_drop]
    omega

/-- C6: when a `(typo, correct)` special sequence matches at the current
source position, the emitted keystrokes (typo characters, backspaces for
the part after the common prefix, then the correction suffix) leave the
current logical line containing literally `correct` spliced at the cursor
— no residual typo characters — and the source position advances by the
matched key's length, not the typo's length. -/
theorem special_sequence_expansion (s : EditorState) (hv : Valid s)
    (seqs : List (List Char × SeqValue)) (line : List Char) (idx : Nat)
    (typo correct pat : List Char)
    (hfind : findSpecial seqs (line.drop idx) = some (typo, correct, pat))
    (ht : '\n' ∉ typo) (hc : '\n' ∉ correct) :
    specialStep seqs line idx s =
      some (.ok ⟨s.lines.set s.row ((s.lines.getD s.row []).take s.col ++ correct ++
            (s.lines.getD s.row []).drop s.col), s.row, s.col + correct.length⟩,
        idx + pat.length) := by
  simp only [specialStep, hfind]
  rw [typeSpecialSequence_spec s hv typo correct ht hc]

/-- Witness for C6: the spec's `("teh", "the")` pair at the start of
`"teh cat"`, typed into the initial buffer. -/
theorem special_sequence_expansion_witness :
    specialStep [("teh".toList, SeqValue.pair "teh".toList "the".toList)]
        "teh cat".toList 0 initState =
      some (.ok ⟨initState.lines.set initState.row
            ((initState.lines.getD initState.row []).take initState.col ++ "the".toList ++
              (initState.lines.getD initState.row []).drop initState.col),
          initState.row, initState.col + "the".toList.length⟩,
        0 + "teh".toList.length) :=
  special_sequence_expansion initState (by decide)
    [("teh".toList, SeqValue.pair "teh".toList "the".toList)] "teh cat".toList 0
    "teh".toList "the".toList "teh".toList (by decide) (by decide) (by decide)

/-- C10: a `special_sequences` entry whose value is a plain string is
typed with the string value as the typo and the pattern key itself as the
correction, so after the scripted correction the line contains the key
literally. -/
theorem plain_sequence_types_key (s : EditorState) (hv : Valid s) (pat v : List Char)
    (hvnl : '\n' ∉ v) (hpnl : '\n' ∉ pat) :
    resolveSequence pat (.plain v) = (v, pat) ∧
      typeSpecialSequence s v pat =
        .ok ⟨s.lines.set s.row ((s.lines.getD s.row []).take s.col ++ pat ++
              (s.lines.getD s.row []).drop s.col), s.row, s.col + pat.length⟩ :=
  ⟨rfl, typeSpecialSequence_spec s hv v pat hvnl hpnl⟩

/-- Witness for C10: entry `"ok" ↦ "okk"` typed into the initial buffer. -/
theorem plain_sequence_types_key_witness :
    resolveSequence "ok".toList (.plain "okk".toList) = ("okk".toList, "ok".toList) ∧
      typeSpecialSequence initState "okk".toList "ok".toList =
        .ok ⟨initState.lines.set initState.row
              ((initState.lines.getD initState.row []).take initState.col ++ "ok".toList ++
                (initState.lines.getD initState.row []).drop initState.col),
            initState.row, initState.col + "ok".toList.length⟩ :=
  plain_sequence_types_key initState (by decide) "ok".toList "okk".toList (by decide) (by decide)

end SpecialSequences

/-- Witness for C4: line `"aa bb cc"` at width 4 wraps to
`["aa","bb","cc"]`; cursor column 4 lands on segment 1 at display column
`4 − cumOff 1 = 1`. -/
theorem cursor_mapping_witness :
    findCursor (wrapLine "aa bb cc".toList 4) 4 =
        (1, 4 - cumOff (wrapLine "aa bb cc".toList 4) 1) ∧
      4 - cumOff (wrapLine "aa bb cc".toList 4) 1 ≤
        ((wrapLine "aa bb cc".toList 4).getD 1 []).length :=
  (cursor_mapping "aa bb cc".toList 4 4 (by decide) _ rfl).1 1 (by decide) (by decide)
    (by
      intro k hk
      interval_cases k
      decide)

section Highlighting

/-- Which of the two colors `_get_char_color` returns for a character:
`color_highlight` or the default `color_text` (the concrete RGB values
are configuration data and irrelevant to the selection logic). -/
inductive CharColor where
  | highlight
  | text
deriving DecidableEq

/-- Python `line.find(pattern)`: index of the first occurrence, scanning
left to right (`none` for Python's `-1`). -/
def pyFindGo (pat : List Char) : Nat → List Char → Option Nat
  | i, [] => if pat.isPrefixOf ([] : List Char) then some i else none
  | i, l@(_ :: rest) => if pat.isPrefixOf l then some i else pyFindGo pat (i + 1) rest

/-- `line.find(pattern)` from index 0; `pattern in line` is `pyFind ≠ none`. -/
def pyFind (pat line : List Char) : Option Nat := pyFindGo pat 0 line

/-- `VimVideoGenerator._get_char_color`: first pattern present in the
given (displayed) line whose first-occurrence span covers `col` wins. -/
def getCharColor (patterns : List (List Char)) (line : List Char) (col : Nat) : CharColor :=
  match patterns with
  | [] => .text
  | pat :: rest =>
    match pyFind pat line with
    | some st =>
      if st ≤ col ∧ col < st + pat.length then .highlight
      else getCharColor rest line col
    | none => getCharColor rest line col

/-- The colors assigned to one displayed line, column by column, as in
`_draw_line_plain` / `_draw_line_with_cursor` (both call
`_get_char_color(line, col)` with the displayed segment). -/
def lineColors (patterns : List (List Char)) (seg : List Char) : List CharColor :=
  (List.range seg.length).map (getCharColor patterns seg)

/-- The colors of a whole logical line as rendered by `_draw_content`:
the line is wrapped and each displayed segment is colored independently. -/
def contentColors (patterns : List (List Char)) (line : List Char) (width : Nat) :
    List (List CharColor) :=
  (wrapLine line width).map (lineColors patterns)

theorem pyFindGo_unique (p : List Char) :
    ∀ (l : List Char) (k m : Nat), p.isPrefixOf (l.drop m) →
      (∀ i, p.isPrefixOf (l.drop i) → i = m) →
      pyFindGo p k l = some (k + m) := by
  intro l
  induction l with
  | nil =>
    intro k m hocc huniq
    simp only [List.drop_nil] at hocc
    have h0 : 0 = m := huniq 0 (by simpa using hocc)
    rw [← h0]
    simp [pyFindGo, hocc]
  | cons c rest ih =>
    intro k m hocc huniq
    cases m with
    | zero =>
      rw [List.drop_zero] at hocc
      simp [pyFindGo, hocc]
    | succ m =>
      have hnp : ¬ p.isPrefixOf (c :: rest) := by
        intro h
        have := huniq 0 (by simpa using h)
        omega
      rw [List.drop_succ_cons] at hocc
      have hrec := ih (k + 1) m hocc (fun i hi => by
        have := huniq (i + 1) (by rw [List.drop_succ_cons]; exact hi)
        omega)
      simp only [pyFindGo, if_neg hnp, hrec]
      congr 1
      omega

/-- C7 counterexample: the pattern `"TODO"` occurs exactly once, at
position 0, in the logical line `"TODO"`; with `columns = 4`
(width 3) the line wraps to `["TOD", "O"]` and — because matching runs
against each displayed segment — no character is highlighted at all,
so the highlight is not independent of where the line was wrapped. -/
theorem highlight_wrap_counterexample :
    pyFind "TODO".toList "TODO".toList = some 0 ∧
      wrapLine "TODO".toList 3 = ["TOD".toList, "O".toList] ∧
      contentColors ["TODO".toList] "TODO".toList 3 =
        [[.text, .text, .text], [.text]] := by decide

/-- C7 (amended): highlight matching is performed against each displayed
(wrapped) segment, not against the pre-wrap logical line, so it is not
wrap-independent.  For a logical line that fits within `columns − 1`
(a single DisplayLine equal to the logical line) and a pattern occurring
exactly once in it, exactly the characters of that occurrence receive the
highlight color. -/
theorem highlight_exact_when_unwrapped (p line : List Char) (w st : Nat)
    (hshort : line.length ≤ w)
    (hocc : p.isPrefixOf (line.drop st))
    (huniq : ∀ i, p.isPrefixOf (line.drop i) → i = st) :
    pyFind p line = some st ∧
      contentColors [p] line w = [lineColors [p] line] ∧
      ∀ col, getCharColor [p] line col = .highlight ↔ st ≤ col ∧ col < st + p.length := by
  have hfind : pyFind p line = some st := by
    have := pyFindGo_unique p line 0 st hocc huniq
    simpa [pyFind] using this
  refine ⟨hfind, ?_, ?_⟩
  · unfold contentColors wrapLine
    rw [if_pos hshort]
    rfl
  · intro col
    simp only [getCharColor, hfind]
    by_cases h : st ≤ col ∧ col < st + p.length
    · simp [h]
    · simp [h]

/-- Witness for the amended C7: `"TODO"` occurring once at position 2 of
`"a TODO b"`, unwrapped at width 10; column 3 is highlighted. -/
theorem highlight_exact_when_unwrapped_witness :
    pyFind "TODO".toList "a TODO b".toList = some 2 ∧
      (getCharColor ["TODO".toList] "a TODO b".toList 3 = .highlight ↔
        2 ≤ 3 ∧ 3 < 2 + "TODO".toList.length) :=
  ⟨(highlight_exact_when_unwrapped "TODO".toList "a TODO b".toList 10 2 (by decide)
      (by decide)
      (by
        intro i hi
        by_cases hb : i < 9
        · interval_cases i <;> revert hi <;> decide
        · exfalso
          rw [List.drop_eq_nil_of_le (by simp; omega)] at hi
          revert hi
          decide)).1,
   (highlight_exact_when_unwrapped "TODO".toList "a TODO b".toList 10 2 (by decide)
      (by decide)
      (by
        intro i hi
        by_cases hb : i < 9
        · interval_cases i <;> revert hi <;> decide
        · exfalso
          rw [List.drop_eq_nil_of_le (by simp; omega)] at hi
          revert hi
          decide)).2.2 3⟩

end Highlighting

end Vim2Vid
